import Mathlib

/-!
Shallow embedding of the Upstox master bot (`src/main.py` and
`src/convert_token.py`) and proofs of the specified properties of its
market-profile builder, quote poller, option-chain selector and signal rules.

Prices and volumes are embedded as exact rationals (`ℚ`); Python's `round`
(banker's rounding, half to even) is embedded explicitly as `pyRound`.
Python dicts are embedded as insertion-ordered association lists, since the
source relies on dict iteration order (first-maximum tie-breaking of the POC,
stable sorting of buckets by volume).
-/

attribute [local semireducible] Rat.mul Rat.inv Rat.add Rat.sub

/-- Python's built-in `round` to an integer: nearest integer, ties to even
(`Rat.floor` is the computable floor; it equals `⌊q⌋`). -/
def pyRound (q : ℚ) : ℤ :=
  if q - q.floor < 1/2 then q.floor
  else if q - q.floor > 1/2 then q.floor + 1
  else if q.floor % 2 = 0 then q.floor else q.floor + 1

/-- One intraday candle row `[ts, o, h, l, close, vol]` from
`data.candles`.  Rows shorter than 6 fields are skipped by the source
(`if len(c) < 6: continue`) and are not representable here; skipping them is
observationally the same as their absence. -/
structure Candle where
  ts : String
  o : Option ℚ
  h : Option ℚ
  l : Option ℚ
  close : Option ℚ
  vol : ℚ
deriving DecidableEq

/-- The dict returned by `build_market_profile` in `src/main.py`. -/
structure MarketProfile where
  poc : ℚ
  vah : ℚ
  val : ℚ
  high : Option ℚ
  low : Option ℚ
deriving DecidableEq

/-- The price bucket of a close: `round(close / bucket_size) * bucket_size`. -/
def bucketOf (close bucket_size : ℚ) : ℚ :=
  (pyRound (close / bucket_size) : ℚ) * bucket_size

/-- `vol_at_price[bucket] = vol_at_price.get(bucket, 0) + vol` on an
insertion-ordered association list: an existing key keeps its position
(as in a Python dict), a new key is appended at the end. -/
def upsertVol (m : List (ℚ × ℚ)) (k v : ℚ) : List (ℚ × ℚ) :=
  match m with
  | [] => [(k, v)]
  | (k1, v1) :: rest =>
    if k1 = k then (k1, v1 + v) :: rest else (k1, v1) :: upsertVol rest k v

/-- The candle loop of `build_market_profile`, accumulating `vol_at_price`
over the candles with a non-null close. -/
def mpFold (m : List (ℚ × ℚ)) (candles : List Candle) (bucket_size : ℚ) :
    List (ℚ × ℚ) :=
  match candles with
  | [] => m
  | c :: cs =>
    match c.close with
    | none => mpFold m cs bucket_size
    | some cl => mpFold (upsertVol m (bucketOf cl bucket_size) c.vol) cs bucket_size

/-- `vol_at_price` after the candle loop. -/
def volAtPrice (candles : List Candle) (bucket_size : ℚ) : List (ℚ × ℚ) :=
  mpFold [] candles bucket_size

/-- `total_vol` after the candle loop: volumes of candles with a non-null
close. -/
def totalVol (candles : List Candle) : ℚ :=
  match candles with
  | [] => 0
  | c :: cs =>
    (match c.close with
     | none => 0
     | some _ => c.vol) + totalVol cs

/-- `d_high` after the candle loop (`float("-inf")` start embedded as
`none`); updated only for candles with a non-null close and non-null high,
as in the source. -/
def dayHigh (candles : List Candle) : Option ℚ :=
  match candles with
  | [] => none
  | c :: cs =>
    match c.close with
    | none => dayHigh cs
    | some _ =>
      match c.h with
      | none => dayHigh cs
      | some hv =>
        match dayHigh cs with
        | none => some hv
        | some m => some (max hv m)

/-- `d_low` after the candle loop, dually to `dayHigh`. -/
def dayLow (candles : List Candle) : Option ℚ :=
  match candles with
  | [] => none
  | c :: cs =>
    match c.close with
    | none => dayLow cs
    | some _ =>
      match c.l with
      | none => dayLow cs
      | some lv =>
        match dayLow cs with
        | none => some lv
        | some m => some (min lv m)

/-- Python's `max(iterable, key=f)` over a nonempty list of buckets with
`f = volume`: left scan keeping the current best, replacing only on a
strictly larger volume, hence returning the first maximum in iteration
order. -/
def pyMaxSnd (x : ℚ × ℚ) (xs : List (ℚ × ℚ)) : ℚ × ℚ :=
  xs.foldl (fun b e => if e.2 > b.2 then e else b) x

/-- `poc_price = max(vol_at_price, key=lambda p: vol_at_price[p])`.
The `[]` case is unreachable in `build_market_profile` (guarded by
`if not vol_at_price`). -/
def pocOf (m : List (ℚ × ℚ)) : ℚ :=
  match m with
  | [] => 0
  | x :: xs => (pyMaxSnd x xs).1

/-- One step of a stable descending insertion sort by volume: `x` goes
before the first element whose volume is not larger, so that elements with
equal volume keep their original relative order, as Python's stable
`sorted(..., reverse=True)` does. -/
def insertByVolDesc (x : ℚ × ℚ) (l : List (ℚ × ℚ)) : List (ℚ × ℚ) :=
  match l with
  | [] => [x]
  | y :: ys => if x.2 ≥ y.2 then x :: y :: ys else y :: insertByVolDesc x ys

/-- `sorted(vol_at_price.items(), key=lambda x: x[1], reverse=True)`:
stable sort, descending by volume. -/
def sortByVolDesc (l : List (ℚ × ℚ)) : List (ℚ × ℚ) :=
  match l with
  | [] => []
  | x :: xs => insertByVolDesc x (sortByVolDesc xs)

/-- The value-area loop: walk the buckets in descending-volume order,
accumulating volume, and stop with the first bucket that brings the
running total to the target (`if cum >= target: break`). -/
def vaTake (target cum : ℚ) (l : List (ℚ × ℚ)) : List (ℚ × ℚ) :=
  match l with
  | [] => []
  | (p, v) :: rest =>
    if cum + v ≥ target then [(p, v)]
    else (p, v) :: vaTake target (cum + v) rest

/-- The `va_prices` bucket set (as the taken prefix of the sorted bucket
list) for target `total_vol * 0.7`. -/
def valueAreaOf (m : List (ℚ × ℚ)) (total : ℚ) : List (ℚ × ℚ) :=
  vaTake (total * (7/10)) 0 (sortByVolDesc m)

/-- Python's `max` over a nonempty collection of rationals (given as head
and tail). -/
def listMax (x : ℚ) (xs : List ℚ) : ℚ := xs.foldl max x

/-- Python's `min` over a nonempty collection of rationals. -/
def listMin (x : ℚ) (xs : List ℚ) : ℚ := xs.foldl min x

/-- `build_market_profile(candles, bucket_size)` from `src/main.py`:
volume-at-price profile over close-price buckets, with POC, the 70%
value area bounds VAH/VAL, and the session high/low. -/
def build_market_profile (candles : List Candle) (bucket_size : ℚ) :
    Option MarketProfile :=
  if candles = [] then none
  else
    let m := volAtPrice candles bucket_size
    let total := totalVol candles
    if m = [] ∨ total ≤ 0 then none
    else
      let va := (valueAreaOf m total).map Prod.fst
      match va with
      | [] =>
        -- unreachable: the value-area loop always takes the first bucket
        none
      | p :: ps =>
        some
          { poc := pocOf m
            vah := listMax p ps
            val := listMin p ps
            high := dayHigh candles
            low := dayLow candles }

/-- One record of the `/v2/option/contract` response, with the fields
`pick_atm_plus_minus` reads.  `strike_price` is kept as an integer, as the
source immediately coerces it with `int(...)`. -/
structure OptionContract where
  instrument_key : String
  trading_symbol : String
  instrument_type : String
  strike_price : ℤ
deriving DecidableEq

/-- One step of sorting-with-deduplication of strike prices: insert `x`
into an ascending duplicate-free list, dropping it if already present. -/
def insSorted (x : ℤ) (l : List ℤ) : List ℤ :=
  match l with
  | [] => [x]
  | y :: ys =>
    if x < y then x :: y :: ys
    else if x = y then y :: ys
    else y :: insSorted x ys

/-- `sorted({int(c["strike_price"]) for c in subset})`: the ascending list
of distinct strikes. -/
def sortedDedup (l : List ℤ) : List ℤ :=
  match l with
  | [] => []
  | x :: xs => insSorted x (sortedDedup xs)

/-- `subset = [c for c in contracts if c.get("instrument_type") == opt_type]`. -/
def subsetOf (contracts : List OptionContract) (t : String) :
    List OptionContract :=
  contracts.filter (fun c => c.instrument_type = t)

/-- `strikes`: the sorted distinct strike prices of one option type. -/
def strikesOf (contracts : List OptionContract) (t : String) : List ℤ :=
  sortedDedup ((subsetOf contracts t).map (fun c => c.strike_price))

/-- Python's `min(range(n), key=f)`: left scan over `0, 1, …, n-1`
keeping the current best, replacing only on a strictly smaller key, hence
the first index attaining the minimum. -/
def pyMinIdx (f : ℕ → ℤ) (n : ℕ) : ℕ :=
  (List.range n).foldl (fun b i => if f i < f b then i else b) 0

/-- `atm_idx = min(range(len(strikes)), key=lambda i: abs(strikes[i] - atm_strike))`. -/
def atmIdxOf (strikes : List ℤ) (atm_strike : ℤ) : ℕ :=
  pyMinIdx (fun i => |strikes.getD i 0 - atm_strike|) strikes.length

/-- `chosen = strikes[start : end + 1]` with `start = max(0, atm_idx - N)`
and `end = min(len(strikes) - 1, atm_idx + N)` (natural-number
subtraction is the clamped `max(0, ·)`). -/
def windowOf (strikes : List ℤ) (atm_strike : ℤ) (strikes_each_side : ℕ) :
    List ℤ :=
  let atm_idx := atmIdxOf strikes atm_strike
  let start := atm_idx - strikes_each_side
  let e := min (strikes.length - 1) (atm_idx + strikes_each_side)
  (strikes.drop start).take (e + 1 - start)

/-- The body of the per-option-type iteration of `pick_atm_plus_minus`:
for each chosen strike, emit `(instrument_key, trading_symbol)` of the
first contract of that type with that strike.  An empty strike list is
skipped (`if not subset: continue`, `if not strikes: continue`). -/
def pickSide (contracts : List OptionContract) (t : String) (atm_strike : ℤ)
    (strikes_each_side : ℕ) : List (String × String) :=
  let subset := subsetOf contracts t
  let strikes := strikesOf contracts t
  if strikes = [] then []
  else
    (windowOf strikes atm_strike strikes_each_side).filterMap fun s =>
      (subset.find? (fun c => c.strike_price = s)).map fun c =>
        (c.instrument_key, c.trading_symbol)

/-- `pick_atm_plus_minus(contracts, atm_strike, strikes_each_side)` from
`src/main.py`.  The source file is truncated at its very last line, which
reads `return` with no expression and no trailing newline; the returned
value is the accumulated `results` list, per the spec of the Option Chain
Selector (calls first, then puts, in strike-processing order). -/
def pick_atm_plus_minus (contracts : List OptionContract) (atm_strike : ℤ)
    (strikes_each_side : ℕ) : List (String × String) :=
  pickSide contracts "CE" atm_strike strikes_each_side ++
    pickSide contracts "PE" atm_strike strikes_each_side

/-- The `ohlc` sub-object of a quote entry. -/
structure OhlcBlock where
  close : Option ℚ
deriving DecidableEq

/-- One instrument entry of the `/v2/market-quote/quotes` response `data`
map: `last_price`, optional `ohlc` block, optional `volume` (absent and
null are both `none`; `q.get("volume", 0)` followed by `vol or 0` turns
either into 0). -/
structure QuoteEntry where
  last_price : Option ℚ
  ohlc : Option OhlcBlock
  volume : Option ℚ
deriving DecidableEq

/-- Outcome of the HTTP round trip inside `fetch_quotes`: either the
request/JSON decoding raised, or a JSON object with an optional `status`
field and a `data` map (insertion-ordered association list). -/
inductive QuoteHttpResult where
  | exn : QuoteHttpResult
  | ok : Option String → List (String × QuoteEntry) → QuoteHttpResult
deriving DecidableEq

/-- The `ltp` computed for one quote entry: `last_price`, else
`(q.get("ohlc") or {}).get("close")`. -/
def ltpOf (q : QuoteEntry) : Option ℚ :=
  match q.last_price with
  | some p => some p
  | none =>
    match q.ohlc with
    | some ob => ob.close
    | none => none

/-- The loop body of `fetch_quotes`: append `key -> (ltp, vol or 0)` when
`ltp` is non-null, else keep `out` unchanged. -/
def quoteStep (out : List (String × (ℚ × ℚ))) (kq : String × QuoteEntry) :
    List (String × (ℚ × ℚ)) :=
  match ltpOf kq.2 with
  | some p => out ++ [(kq.1, (p, kq.2.volume.getD 0))]
  | none => out

/-- `fetch_quotes(instrument_keys)` from `src/main.py`, with the HTTP
outcome passed explicitly: returns `key -> (ltp, volume)` for the entries
whose `ltp` is non-null; an exception, or a missing or non-`"success"`
`status`, yields the empty mapping. -/
def fetch_quotes (instrument_keys : List String) (resp : QuoteHttpResult) :
    List (String × (ℚ × ℚ)) :=
  if instrument_keys = [] then []
  else
    match resp with
    | .exn => []
    | .ok status data =>
      if status ≠ some "success" then []
      else data.foldl quoteStep []

/-- `round_nifty_strike(price) = int(round(price / 50.0) * 50)` from
`src/main.py` (the product is already integral, so `int` is the
identity). -/
def round_nifty_strike (price : ℚ) : ℤ :=
  pyRound (price / 50) * 50

/-- `round_banknifty_strike(price) = int(round(price / 100.0) * 100)`. -/
def round_banknifty_strike (price : ℚ) : ℤ :=
  pyRound (price / 100) * 100

/-- The four index signals of the Signal Engine. -/
inductive Signal where
  | tsb : Signal
  | tbs : Signal
  | initiativeBuy : Signal
  | initiativeSell : Signal
deriving DecidableEq

/-- Modelled from the spec: the Signal Engine's per-tick evaluation of the
index signals is missing from `src/main.py` (the file is truncated inside
`pick_atm_plus_minus`, before the signal logic and main loop).  Following
§4.4 of the spec: Trapped Sellers Buy fires when the previous price was
below VAL and the current price is at or above VAL; Trapped Buyers Sell is
the mirror at VAH; Initiative Buying/Selling fire when the previous price
was inside the value area and the current price is above VAH / below VAL. -/
def indexSignals (mp : MarketProfile) (prev cur : ℚ) : List Signal :=
  (if prev < mp.val ∧ mp.val ≤ cur then [Signal.tsb] else []) ++
    (if mp.vah < prev ∧ cur ≤ mp.vah then [Signal.tbs] else []) ++
    (if mp.val ≤ prev ∧ prev ≤ mp.vah ∧ mp.vah < cur then [Signal.initiativeBuy] else []) ++
    (if mp.val ≤ prev ∧ prev ≤ mp.vah ∧ cur < mp.val then [Signal.initiativeSell] else [])

/-! ### Rounding lemmas -/

theorem ratFloor_eq_floor (q : ℚ) : q.floor = ⌊q⌋ :=
  (Rat.floor_def' q).trans Rat.floor_def.symm

theorem pyRound_dist (q : ℚ) : |(pyRound q : ℚ) - q| ≤ 1/2 := by
  have hfl : ((q.floor : ℤ) : ℚ) = ((⌊q⌋ : ℤ) : ℚ) := by rw [ratFloor_eq_floor]
  have h1 : ((⌊q⌋ : ℤ) : ℚ) ≤ q := Int.floor_le q
  have h2 : q < ((⌊q⌋ : ℤ) : ℚ) + 1 := Int.lt_floor_add_one q
  unfold pyRound
  rw [ratFloor_eq_floor]
  split_ifs with hc1 hc2 hc3
  · rw [abs_le]; constructor <;> linarith
  · rw [abs_le]; push_cast; constructor <;> linarith
  · rw [abs_le]; constructor <;> linarith
  · rw [abs_le]; push_cast; constructor <;> linarith

theorem pyRound_nearest (q : ℚ) (m : ℤ) :
    |(pyRound q : ℚ) - q| ≤ |(m : ℚ) - q| := by
  by_cases hm : m = pyRound q
  · rw [hm]
  · have hd := pyRound_dist q
    have hne : (1 : ℚ) ≤ |(m : ℚ) - (pyRound q : ℚ)| := by
      have : (1 : ℤ) ≤ |m - pyRound q| := Int.one_le_abs (sub_ne_zero.mpr hm)
      calc (1 : ℚ) = ((1 : ℤ) : ℚ) := by norm_num
        _ ≤ ((|m - pyRound q| : ℤ) : ℚ) := by exact_mod_cast this
        _ = |((m - pyRound q : ℤ) : ℚ)| := Int.cast_abs
        _ = |(m : ℚ) - (pyRound q : ℚ)| := by push_cast; ring_nf
    have htri : |(m : ℚ) - (pyRound q : ℚ)| ≤ |(m : ℚ) - q| + |(pyRound q : ℚ) - q| := by
      have := abs_sub_le ((m : ℚ)) q ((pyRound q : ℚ))
      calc |(m : ℚ) - (pyRound q : ℚ)| ≤ |(m : ℚ) - q| + |q - (pyRound q : ℚ)| :=
            abs_sub_le ((m : ℚ)) q ((pyRound q : ℚ))
        _ = |(m : ℚ) - q| + |(pyRound q : ℚ) - q| := by rw [abs_sub_comm q]
    linarith

/-- C8: for every last price, `round_nifty_strike` is a multiple of 50 at
minimal distance from the price among all multiples of 50, and
`round_banknifty_strike` likewise for multiples of 100.  At an exact
midpoint the code rounds the quotient half-to-even, which still yields a
nearest multiple. -/
theorem strike_rounding_nearest (price : ℚ) (m : ℤ) :
    (∃ k : ℤ, round_nifty_strike price = 50 * k) ∧
      |((round_nifty_strike price : ℤ) : ℚ) - price| ≤ |((m : ℚ)) * 50 - price| ∧
      (∃ k : ℤ, round_banknifty_strike price = 100 * k) ∧
      |((round_banknifty_strike price : ℤ) : ℚ) - price| ≤ |((m : ℚ)) * 100 - price| := by
  refine ⟨⟨pyRound (price / 50), by rw [round_nifty_strike]; ring⟩, ?_,
    ⟨pyRound (price / 100), by rw [round_banknifty_strike]; ring⟩, ?_⟩
  · have h := pyRound_nearest (price / 50) m
    have e1 : ((round_nifty_strike price : ℤ) : ℚ) - price
        = 50 * ((pyRound (price / 50) : ℚ) - price / 50) := by
      rw [round_nifty_strike]; push_cast; ring
    have e2 : (m : ℚ) * 50 - price = 50 * ((m : ℚ) - price / 50) := by ring
    rw [e1, e2, abs_mul, abs_mul]
    have h50 : |(50 : ℚ)| = 50 := by norm_num
    rw [h50]
    linarith
  · have h := pyRound_nearest (price / 100) m
    have e1 : ((round_banknifty_strike price : ℤ) : ℚ) - price
        = 100 * ((pyRound (price / 100) : ℚ) - price / 100) := by
      rw [round_banknifty_strike]; push_cast; ring
    have e2 : (m : ℚ) * 100 - price = 100 * ((m : ℚ) - price / 100) := by ring
    rw [e1, e2, abs_mul, abs_mul]
    have h100 : |(100 : ℚ)| = 100 := by norm_num
    rw [h100]
    linarith

/-! ### Quote poller: failure behaviour -/

/-- C7: a transport exception, or a response whose `status` is missing or
not `"success"`, makes `fetch_quotes` return the empty mapping (the
function is total, so in the embedding no exception can propagate). -/
theorem fetch_quotes_failure_empty (instrument_keys : List String)
    (status : Option String) (data : List (String × QuoteEntry))
    (h : status ≠ some "success") :
    fetch_quotes instrument_keys QuoteHttpResult.exn = [] ∧
      fetch_quotes instrument_keys (QuoteHttpResult.ok status data) = [] := by
  constructor
  · by_cases hk : instrument_keys = []
    · rw [fetch_quotes, if_pos hk]
    · rw [fetch_quotes, if_neg hk]
  · by_cases hk : instrument_keys = []
    · rw [fetch_quotes, if_pos hk]
    · rw [fetch_quotes, if_neg hk]
      exact if_pos h

theorem fetch_quotes_failure_empty_witness :
    (some "error" ≠ some "success") ∧
      (fetch_quotes ["NSE_INDEX|Nifty 50"] QuoteHttpResult.exn = [] ∧
        fetch_quotes ["NSE_INDEX|Nifty 50"]
          (QuoteHttpResult.ok (some "error") []) = []) :=
  ⟨by decide, fetch_quotes_failure_empty ["NSE_INDEX|Nifty 50"] (some "error") [] (by decide)⟩

/-! ### Signal engine: trapped sellers buy -/

/-- C9: against a current market profile, the Trapped Sellers Buy signal is
emitted for an index tick exactly when the previous price was strictly
below VAL and the current price is at or above VAL. -/
theorem tsb_fires_iff (mp : MarketProfile) (prev cur : ℚ) :
    Signal.tsb ∈ indexSignals mp prev cur ↔ prev < mp.val ∧ mp.val ≤ cur := by
  unfold indexSignals
  split_ifs with h1 h2 h3 h4 <;> simp_all

/-! ### Degenerate inputs of the profile builder -/

theorem mpFold_all_none (candles : List Candle) (bucket_size : ℚ)
    (m : List (ℚ × ℚ)) (h : ∀ c ∈ candles, c.close = none) :
    mpFold m candles bucket_size = m := by
  induction candles generalizing m with
  | nil => rfl
  | cons c cs ih =>
    have hc : c.close = none := h c (List.mem_cons_self c cs)
    rw [mpFold, hc]
    exact ih m (fun d hd => h d (List.mem_cons_of_mem c hd))

/-- C4: the builder returns the no-profile sentinel on every degenerate
input: an empty batch, a batch whose closes are all null, or a batch with
non-positive total volume.  (The embedding is total, so no exception can
be raised.) -/
theorem build_market_profile_none (candles : List Candle) (bucket_size : ℚ)
    (h : candles = [] ∨ (∀ c ∈ candles, c.close = none) ∨ totalVol candles ≤ 0) :
    build_market_profile candles bucket_size = none := by
  rcases h with h | h | h
  · rw [build_market_profile, if_pos h]
  · by_cases h1 : candles = []
    · rw [build_market_profile, if_pos h1]
    · rw [build_market_profile, if_neg h1]
      exact if_pos (Or.inl (mpFold_all_none candles bucket_size [] h))
  · by_cases h1 : candles = []
    · rw [build_market_profile, if_pos h1]
    · rw [build_market_profile, if_neg h1]
      exact if_pos (Or.inr h)

theorem build_market_profile_none_witness :
    ((∀ c ∈ [Candle.mk "t" none none none none 5], c.close = none) ∨
        ([Candle.mk "t" none none none none 5] : List Candle) = [] ∨
        totalVol [Candle.mk "t" none none none none 5] ≤ 0) ∧
      build_market_profile [Candle.mk "t" none none none none 5] 10 = none :=
  ⟨Or.inl (by decide),
    build_market_profile_none [Candle.mk "t" none none none none 5] 10
      (Or.inr (Or.inl (by decide)))⟩

/-! ### Quote poller: successful responses -/

/-- The contribution of one `data` entry to the result of `fetch_quotes`. -/
def entryOut (kq : String × QuoteEntry) : Option (String × (ℚ × ℚ)) :=
  (ltpOf kq.2).map fun p => (kq.1, (p, kq.2.volume.getD 0))

theorem foldl_quoteStep (data : List (String × QuoteEntry))
    (acc : List (String × (ℚ × ℚ))) :
    data.foldl quoteStep acc = acc ++ data.filterMap entryOut := by
  induction data generalizing acc with
  | nil => simp
  | cons kq rest ih =>
    rw [List.foldl_cons, List.filterMap_cons, ih]
    unfold quoteStep entryOut
    cases h : ltpOf kq.2 <;> simp [h]

theorem fetch_quotes_success (instrument_keys : List String)
    (data : List (String × QuoteEntry)) (hk : instrument_keys ≠ []) :
    fetch_quotes instrument_keys (QuoteHttpResult.ok (some "success") data)
      = data.filterMap entryOut := by
  rw [fetch_quotes, if_neg hk]
  have h : ¬((some "success" : Option String) ≠ some "success") := by simp
  exact (if_neg h).trans (foldl_quoteStep data [])

theorem entryOut_key (kq : String × QuoteEntry) (r : String × (ℚ × ℚ))
    (h : entryOut kq = some r) : r.1 = kq.1 := by
  unfold entryOut at h
  cases hl : ltpOf kq.2 <;> rw [hl] at h
  · exact absurd h (by simp)
  · injection h with h2
    rw [← h2]

theorem lookup_entryOut_not_mem (data : List (String × QuoteEntry)) (k : String)
    (h : k ∉ data.map Prod.fst) :
    List.lookup k (data.filterMap entryOut) = none := by
  induction data with
  | nil => rfl
  | cons kq rest ih =>
    have hk1 : k ≠ kq.1 := by
      intro he
      exact h (by simp [he])
    have hrest : k ∉ rest.map Prod.fst := by
      intro he
      exact h (by simp [he])
    rw [List.filterMap_cons]
    cases he : entryOut kq with
    | none => exact ih hrest
    | some r =>
      have : r.1 = kq.1 := entryOut_key kq r he
      rw [List.lookup]
      have hbeq : (k == r.1) = false := by
        rw [this]
        exact beq_eq_false_iff_ne.mpr hk1
      rw [hbeq]
      exact ih hrest

/-- C10: on a successful response, each instrument entry contributes its
`last_price` as the price, falling back to the `ohlc` `close` when
`last_price` is null; when both are null the instrument is absent from the
mapping; a null or missing `volume` is reported as 0. -/
theorem fetch_quotes_entry (instrument_keys : List String)
    (data : List (String × QuoteEntry)) (k : String) (q : QuoteEntry)
    (hk : instrument_keys ≠ []) (hnd : (data.map Prod.fst).Nodup)
    (hmem : (k, q) ∈ data) :
    List.lookup k
        (fetch_quotes instrument_keys (QuoteHttpResult.ok (some "success") data))
      = match q.last_price with
        | some p => some (p, q.volume.getD 0)
        | none =>
          match q.ohlc with
          | some ob =>
            match ob.close with
            | some p => some (p, q.volume.getD 0)
            | none => none
          | none => none := by
  rw [fetch_quotes_success instrument_keys data hk]
  have hrhs :
      (match q.last_price with
        | some p => some (p, q.volume.getD 0)
        | none =>
          match q.ohlc with
          | some ob =>
            match ob.close with
            | some p => some (p, q.volume.getD 0)
            | none => none
          | none => none)
        = (ltpOf q).map fun p => (p, q.volume.getD 0) := by
    unfold ltpOf
    cases q.last_price with
    | some p => rfl
    | none =>
      cases q.ohlc with
      | none => rfl
      | some ob =>
        rcases ob with ⟨cl⟩
        cases cl <;> rfl
  rw [hrhs]
  clear hrhs
  induction data with
  | nil => cases hmem
  | cons kq rest ih =>
    have hnd2 : (rest.map Prod.fst).Nodup := by
      rw [List.map_cons] at hnd
      exact hnd.of_cons
    have hhead : kq.1 ∉ rest.map Prod.fst := by
      rw [List.map_cons] at hnd
      exact (List.nodup_cons.mp hnd).1
    rcases List.mem_cons.mp hmem with heq | hmemr
    · rw [← heq]
      rw [List.filterMap_cons]
      cases hl : ltpOf q with
      | none =>
        have : entryOut (k, q) = none := by
          unfold entryOut
          rw [hl]
          rfl
        rw [this, Option.map_none']
        apply lookup_entryOut_not_mem
        rw [← heq] at hhead
        exact hhead
      | some p =>
        have : entryOut (k, q) = some (k, (p, q.volume.getD 0)) := by
          unfold entryOut
          rw [hl]
          rfl
        rw [this, List.lookup, beq_self_eq_true, Option.map_some']
    · have hne : (k == kq.1) = false := by
        refine beq_eq_false_iff_ne.mpr fun he => ?_
        apply hhead
        rw [← he]
        exact List.mem_map_of_mem Prod.fst hmemr
      rw [List.filterMap_cons]
      cases he : entryOut kq with
      | none => exact ih hnd2 hmemr
      | some r =>
        rw [List.lookup]
        have hr1 : r.1 = kq.1 := entryOut_key kq r he
        rw [hr1, hne]
        exact ih hnd2 hmemr

theorem fetch_quotes_entry_witness :
    (["k1"] ≠ ([] : List String)) ∧
      List.lookup "k1"
          (fetch_quotes ["k1"]
            (QuoteHttpResult.ok (some "success")
              [("k1", QuoteEntry.mk none (some (OhlcBlock.mk (some 5))) none)]))
        = some (5, 0) := by
  refine ⟨by decide, ?_⟩
  exact fetch_quotes_entry ["k1"]
    [("k1", QuoteEntry.mk none (some (OhlcBlock.mk (some 5))) none)] "k1"
    (QuoteEntry.mk none (some (OhlcBlock.mk (some 5))) none)
    (by decide) (by decide) (by decide)

/-! ### Profile builder: permutation, order and sum lemmas -/

theorem insertByVolDesc_perm (x : ℚ × ℚ) (l : List (ℚ × ℚ)) :
    List.Perm (insertByVolDesc x l) (x :: l) := by
  induction l with
  | nil => rfl
  | cons y ys ih =>
    rw [insertByVolDesc]
    split_ifs
    · rfl
    · exact (ih.cons y).trans (List.Perm.swap x y ys)

theorem sortByVolDesc_perm (l : List (ℚ × ℚ)) : List.Perm (sortByVolDesc l) l := by
  induction l with
  | nil => rfl
  | cons x xs ih =>
    rw [sortByVolDesc]
    exact (insertByVolDesc_perm x (sortByVolDesc xs)).trans (ih.cons x)

theorem insertByVolDesc_pairwise (x : ℚ × ℚ) (l : List (ℚ × ℚ))
    (h : l.Pairwise fun a b => b.2 ≤ a.2) :
    (insertByVolDesc x l).Pairwise fun a b => b.2 ≤ a.2 := by
  induction l with
  | nil => simp [insertByVolDesc]
  | cons y ys ih =>
    rw [List.pairwise_cons] at h
    rw [insertByVolDesc]
    split_ifs with hxy
    · refine List.Pairwise.cons ?_ (List.Pairwise.cons h.1 h.2)
      intro z hz
      rcases List.mem_cons.mp hz with hz | hz
      · rw [hz]; exact hxy
      · exact le_trans (h.1 z hz) hxy
    · refine List.Pairwise.cons ?_ (ih h.2)
      intro z hz
      rcases List.mem_cons.mp ((insertByVolDesc_perm x ys).mem_iff.mp hz) with hz2 | hz2
      · rw [hz2]; exact le_of_not_ge hxy
      · exact h.1 z hz2

theorem sortByVolDesc_pairwise (l : List (ℚ × ℚ)) :
    (sortByVolDesc l).Pairwise fun a b => b.2 ≤ a.2 := by
  induction l with
  | nil => exact List.Pairwise.nil
  | cons x xs ih => exact insertByVolDesc_pairwise x (sortByVolDesc xs) ih

theorem upsertVol_sum (m : List (ℚ × ℚ)) (k v : ℚ) :
    ((upsertVol m k v).map Prod.snd).sum = (m.map Prod.snd).sum + v := by
  induction m with
  | nil => simp [upsertVol]
  | cons x rest ih =>
    rcases x with ⟨k1, v1⟩
    rw [upsertVol]
    split_ifs with hk
    · simp [add_assoc, add_comm v]
    · simp only [List.map_cons, List.sum_cons, ih]
      ring

theorem mpFold_sum (candles : List Candle) (bucket_size : ℚ)
    (m : List (ℚ × ℚ)) :
    ((mpFold m candles bucket_size).map Prod.snd).sum
      = (m.map Prod.snd).sum + totalVol candles := by
  induction candles generalizing m with
  | nil => simp [mpFold, totalVol]
  | cons c cs ih =>
    rw [mpFold, totalVol]
    cases hc : c.close with
    | none => rw [ih m]; ring
    | some cl => rw [ih, upsertVol_sum]; ring

theorem volAtPrice_sum (candles : List Candle) (bucket_size : ℚ) :
    ((volAtPrice candles bucket_size).map Prod.snd).sum = totalVol candles := by
  rw [volAtPrice, mpFold_sum]
  simp

theorem upsertVol_ne_nil (m : List (ℚ × ℚ)) (k v : ℚ) : upsertVol m k v ≠ [] := by
  cases m with
  | nil => simp [upsertVol]
  | cons x rest =>
    rcases x with ⟨k1, v1⟩
    rw [upsertVol]
    split_ifs <;> simp

theorem mpFold_ne_nil_of_ne_nil (candles : List Candle) (bucket_size : ℚ)
    (m : List (ℚ × ℚ)) (h : m ≠ []) : mpFold m candles bucket_size ≠ [] := by
  induction candles generalizing m with
  | nil => exact h
  | cons c cs ih =>
    rw [mpFold]
    cases c.close with
    | none => exact ih m h
    | some cl => exact ih _ (upsertVol_ne_nil m _ _)

theorem volAtPrice_ne_nil (candles : List Candle) (bucket_size : ℚ)
    (h : ∃ c ∈ candles, c.close ≠ none) :
    volAtPrice candles bucket_size ≠ [] := by
  rw [volAtPrice]
  obtain ⟨c0, hc0, hcl⟩ := h
  induction candles with
  | nil => cases hc0
  | cons c cs ih =>
    rw [mpFold]
    rcases List.mem_cons.mp hc0 with he | he
    · rw [he] at hcl
      cases hc : c.close with
      | none => exact absurd hc hcl
      | some cl => exact mpFold_ne_nil_of_ne_nil cs bucket_size _ (upsertVol_ne_nil [] _ _)
    · cases c.close with
      | none => exact ih he
      | some cl => exact mpFold_ne_nil_of_ne_nil cs bucket_size _ (upsertVol_ne_nil [] _ _)

/-! ### Value-area loop lemmas -/

theorem vaTake_append (target : ℚ) : ∀ (l : List (ℚ × ℚ)) (cum : ℚ),
    ∃ u, vaTake target cum l ++ u = l := by
  intro l
  induction l with
  | nil => exact fun cum => ⟨[], rfl⟩
  | cons pv rest ih =>
    intro cum
    rcases pv with ⟨p, v⟩
    rw [vaTake]
    split_ifs
    · exact ⟨rest, rfl⟩
    · obtain ⟨u, hu⟩ := ih (cum + v)
      exact ⟨u, by rw [List.cons_append, hu]⟩

theorem vaTake_cons (target cum p v : ℚ) (rest : List (ℚ × ℚ)) :
    ∃ r, vaTake target cum ((p, v) :: rest) = (p, v) :: r := by
  rw [vaTake]
  split_ifs
  · exact ⟨[], rfl⟩
  · exact ⟨_, rfl⟩

theorem vaTake_sum_ge (target : ℚ) : ∀ (l : List (ℚ × ℚ)) (cum : ℚ),
    target ≤ cum + (l.map Prod.snd).sum →
    target ≤ cum + ((vaTake target cum l).map Prod.snd).sum := by
  intro l
  induction l with
  | nil => intro cum h; simpa [vaTake] using h
  | cons pv rest ih =>
    intro cum h
    rcases pv with ⟨p, v⟩
    rw [vaTake]
    split_ifs with hge
    · simpa using hge
    · simp only [List.map_cons, List.sum_cons] at h ⊢
      have := ih (cum + v) (by linarith)
      linarith

/-- Removing any minimal-volume bucket from the value-area set drops the
accumulated volume strictly below the target, provided the walked list is
descending by volume and the running total starts below the target. -/
theorem vaTake_remove_min_lt (target : ℚ) : ∀ (l : List (ℚ × ℚ)) (cum : ℚ),
    (l.Pairwise fun a b => b.2 ≤ a.2) → cum < target →
    ∀ b ∈ vaTake target cum l, (∀ b2 ∈ vaTake target cum l, b.2 ≤ b2.2) →
    cum + ((vaTake target cum l).map Prod.snd).sum - b.2 < target := by
  intro l
  induction l with
  | nil =>
    intro cum hpw hcum b hb hmin
    rw [vaTake] at hb
    cases hb
  | cons pv rest ih =>
    intro cum hpw hcum b hb hmin
    rcases pv with ⟨p, v⟩
    rw [List.pairwise_cons] at hpw
    rw [vaTake] at hb hmin ⊢
    split_ifs at hb hmin ⊢ with hge
    · have hbe : b = (p, v) := by simpa using hb
      rw [hbe]
      simp only [List.map_cons, List.map_nil, List.sum_cons, List.sum_nil]
      linarith
    · cases hva2 : vaTake target (cum + v) rest with
      | nil =>
        rw [hva2] at hb
        have hbe : b = (p, v) := by simpa using hb
        rw [hbe]
        simp only [List.map_cons, List.map_nil, List.sum_cons, List.sum_nil]
        linarith
      | cons w ws =>
        rw [hva2] at hb hmin
        obtain ⟨u, hu⟩ := vaTake_append target rest (cum + v)
        rw [hva2] at hu
        rcases List.mem_cons.mp hb with hbe | hbin
        · -- the head is a minimal bucket; every bucket of the tail then has
          -- the same volume, and the induction hypothesis applies to `w`
          have hw_in : w ∈ vaTake target (cum + v) rest := by
            rw [hva2]
            exact List.mem_cons_self w ws
          have hw_rest : w ∈ rest := by
            rw [← hu]
            exact List.mem_append_left u (List.mem_cons_self w ws)
          have hwv : w.2 ≤ v := hpw.1 w hw_rest
          have hvw : v ≤ w.2 := by
            have h2 := hmin w (List.mem_cons_of_mem _ (List.mem_cons_self w ws))
            rw [hbe] at h2
            exact h2
          have hweq : w.2 = v := le_antisymm hwv hvw
          have hwmin : ∀ b2 ∈ vaTake target (cum + v) rest, w.2 ≤ b2.2 := by
            intro b2 hb2
            rw [hva2] at hb2
            have h2 := hmin b2 (List.mem_cons_of_mem _ hb2)
            rw [hbe] at h2
            rw [hweq]
            exact h2
          have hrec := ih (cum + v) hpw.2 (by linarith) w hw_in hwmin
          rw [hva2] at hrec
          rw [hbe]
          simp only [List.map_cons, List.sum_cons] at hrec ⊢
          rw [hweq] at hrec
          linarith
        · have hbmin2 : ∀ b2 ∈ vaTake target (cum + v) rest, b.2 ≤ b2.2 := by
            intro b2 hb2
            rw [hva2] at hb2
            exact hmin b2 (List.mem_cons_of_mem _ hb2)
          have hb_in : b ∈ vaTake target (cum + v) rest := by
            rw [hva2]
            exact hbin
          have hrec := ih (cum + v) hpw.2 (by linarith) b hb_in hbmin2
          rw [hva2] at hrec
          simp only [List.map_cons, List.sum_cons] at hrec ⊢
          linarith

/-! ### Min/max and first-maximum lemmas -/

theorem listMin_le : ∀ (xs : List ℚ) (x z : ℚ), z = x ∨ z ∈ xs → listMin x xs ≤ z := by
  intro xs
  induction xs with
  | nil =>
    intro x z hz
    rcases hz with hz | hz
    · rw [hz]; exact le_refl x
    · cases hz
  | cons y ys ih =>
    intro x z hz
    have hstep : listMin x (y :: ys) = listMin (min x y) ys := rfl
    rw [hstep]
    rcases hz with hz | hz
    · calc listMin (min x y) ys ≤ min x y := ih (min x y) (min x y) (Or.inl rfl)
        _ ≤ x := min_le_left x y
        _ = z := hz.symm
    · rcases List.mem_cons.mp hz with hz2 | hz2
      · calc listMin (min x y) ys ≤ min x y := ih (min x y) (min x y) (Or.inl rfl)
          _ ≤ y := min_le_right x y
          _ = z := hz2.symm
      · exact ih (min x y) z (Or.inr hz2)

theorem le_listMax : ∀ (xs : List ℚ) (x z : ℚ), z = x ∨ z ∈ xs → z ≤ listMax x xs := by
  intro xs
  induction xs with
  | nil =>
    intro x z hz
    rcases hz with hz | hz
    · rw [hz]; exact le_refl x
    · cases hz
  | cons y ys ih =>
    intro x z hz
    have hstep : listMax x (y :: ys) = listMax (max x y) ys := rfl
    rw [hstep]
    rcases hz with hz | hz
    · calc z = x := hz
        _ ≤ max x y := le_max_left x y
        _ ≤ listMax (max x y) ys := ih (max x y) (max x y) (Or.inl rfl)
    · rcases List.mem_cons.mp hz with hz2 | hz2
      · calc z = y := hz2
          _ ≤ max x y := le_max_right x y
          _ ≤ listMax (max x y) ys := ih (max x y) (max x y) (Or.inl rfl)
      · exact ih (max x y) z (Or.inr hz2)

/-- The first maximal-volume bucket in iteration order (the head of a
stable descending sort, and the value of Python's `max` with key). -/
def firstMaxPair (l : List (ℚ × ℚ)) : Option (ℚ × ℚ) :=
  match l with
  | [] => none
  | x :: xs =>
    some
      (match firstMaxPair xs with
       | none => x
       | some y => if x.2 ≥ y.2 then x else y)

theorem pyMaxSnd_eq_firstMaxPair : ∀ (xs : List (ℚ × ℚ)) (x : ℚ × ℚ),
    pyMaxSnd x xs
      = (match firstMaxPair xs with
         | none => x
         | some y => if x.2 ≥ y.2 then x else y) := by
  intro xs
  induction xs with
  | nil => intro x; rfl
  | cons a as ih =>
    intro x
    have hstep : pyMaxSnd x (a :: as) = pyMaxSnd (if a.2 > x.2 then a else x) as := rfl
    rw [hstep, ih]
    have hfa : firstMaxPair (a :: as)
        = some
          (match firstMaxPair as with
           | none => a
           | some y => if a.2 ≥ y.2 then a else y) := rfl
    rw [hfa]
    cases hf : firstMaxPair as with
    | none =>
      simp only []
      split_ifs with h1 h2 h3 <;> first | rfl | linarith
    | some y =>
      simp only []
      split_ifs with h1 h2 h3 h4 <;> first | rfl | linarith

theorem insertByVolDesc_head (x : ℚ × ℚ) (l : List (ℚ × ℚ)) :
    (insertByVolDesc x l).head?
      = some
        (match l.head? with
         | none => x
         | some y => if x.2 ≥ y.2 then x else y) := by
  cases l with
  | nil => rfl
  | cons y ys =>
    rw [insertByVolDesc]
    split_ifs with h <;> simp [h]

theorem sortByVolDesc_head (l : List (ℚ × ℚ)) :
    (sortByVolDesc l).head? = firstMaxPair l := by
  induction l with
  | nil => rfl
  | cons x xs ih =>
    rw [sortByVolDesc, insertByVolDesc_head, ih]
    rw [firstMaxPair]

theorem pocOf_head_sorted (l : List (ℚ × ℚ)) (w : ℚ × ℚ) (ws : List (ℚ × ℚ))
    (h : sortByVolDesc l = w :: ws) : pocOf l = w.1 := by
  cases l with
  | nil => cases h
  | cons x xs =>
    rw [pocOf, pyMaxSnd_eq_firstMaxPair]
    have hh := sortByVolDesc_head (x :: xs)
    rw [h] at hh
    rw [firstMaxPair] at hh
    have := Option.some.inj hh.symm
    rw [← this]

/-! ### The profile claims -/

theorem build_market_profile_eq_some (candles : List Candle) (bucket_size : ℚ)
    (h1 : candles ≠ []) (hmne : volAtPrice candles bucket_size ≠ [])
    (h2 : 0 < totalVol candles) (w : ℚ × ℚ) (r : List (ℚ × ℚ))
    (hva : valueAreaOf (volAtPrice candles bucket_size) (totalVol candles) = w :: r) :
    build_market_profile candles bucket_size
      = some { poc := pocOf (volAtPrice candles bucket_size),
               vah := listMax w.1 (r.map Prod.fst),
               val := listMin w.1 (r.map Prod.fst),
               high := dayHigh candles, low := dayLow candles } := by
  have hcond : ¬(volAtPrice candles bucket_size = [] ∨ totalVol candles ≤ 0) := by
    push_neg
    exact ⟨hmne, by linarith⟩
  rw [build_market_profile, if_neg h1]
  simp only []
  rw [if_neg hcond, hva]
  rfl

theorem sortByVolDesc_ne_nil (m : List (ℚ × ℚ)) (h : m ≠ []) :
    sortByVolDesc m ≠ [] := by
  intro he
  have hp := sortByVolDesc_perm m
  rw [he] at hp
  exact h (hp.symm.eq_nil)

/-- C1: on a non-empty batch with positive total volume and at least one
non-null close, the builder returns a profile with `val ≤ poc ≤ vah`. -/
theorem profile_val_le_poc_le_vah (candles : List Candle) (bucket_size : ℚ)
    (h1 : candles ≠ []) (h2 : 0 < totalVol candles)
    (h3 : ∃ c ∈ candles, c.close ≠ none) :
    ∃ mp, build_market_profile candles bucket_size = some mp ∧
      mp.val ≤ mp.poc ∧ mp.poc ≤ mp.vah := by
  have hmne : volAtPrice candles bucket_size ≠ [] :=
    volAtPrice_ne_nil candles bucket_size h3
  obtain ⟨w, ws, hsort⟩ :=
    List.exists_cons_of_ne_nil (sortByVolDesc_ne_nil _ hmne)
  obtain ⟨r, hr⟩ := vaTake_cons (totalVol candles * (7/10)) 0 w.1 w.2 ws
  have hva : valueAreaOf (volAtPrice candles bucket_size) (totalVol candles)
      = w :: r := by
    rw [valueAreaOf, hsort]
    exact hr
  have hpoc : pocOf (volAtPrice candles bucket_size) = w.1 :=
    pocOf_head_sorted _ w ws hsort
  refine ⟨_, build_market_profile_eq_some candles bucket_size h1 hmne h2 w r hva, ?_, ?_⟩
  · show listMin w.1 (r.map Prod.fst) ≤ pocOf (volAtPrice candles bucket_size)
    rw [hpoc]
    exact listMin_le (r.map Prod.fst) w.1 w.1 (Or.inl rfl)
  · show pocOf (volAtPrice candles bucket_size) ≤ listMax w.1 (r.map Prod.fst)
    rw [hpoc]
    exact le_listMax (r.map Prod.fst) w.1 w.1 (Or.inl rfl)

theorem profile_val_le_poc_le_vah_witness :
    ∃ mp, build_market_profile
        [Candle.mk "t1" none (some 107) (some 96) (some 104) 3,
          Candle.mk "t2" none (some 99) (some 91) (some 96) 2,
          Candle.mk "t3" none (some 105) (some 101) (some 104) 4] 10 = some mp ∧
      mp.val ≤ mp.poc ∧ mp.poc ≤ mp.vah :=
  profile_val_le_poc_le_vah
    [Candle.mk "t1" none (some 107) (some 96) (some 104) 3,
      Candle.mk "t2" none (some 99) (some 91) (some 96) 2,
      Candle.mk "t3" none (some 105) (some 101) (some 104) 4] 10
    (by decide) (by decide) (by decide)

theorem build_some_inv (candles : List Candle) (bucket_size : ℚ)
    (mp : MarketProfile)
    (h : build_market_profile candles bucket_size = some mp) :
    candles ≠ [] ∧ volAtPrice candles bucket_size ≠ [] ∧ 0 < totalVol candles := by
  by_cases hc : candles = []
  · rw [build_market_profile, if_pos hc] at h
    cases h
  · by_cases hcond : volAtPrice candles bucket_size = [] ∨ totalVol candles ≤ 0
    · rw [build_market_profile, if_neg hc] at h
      simp only [] at h
      rw [if_pos hcond] at h
      cases h
    · push_neg at hcond
      exact ⟨hc, hcond.1, by linarith [hcond.2]⟩

/-- C3: whenever the builder returns a profile, the value-area bucket set
covers at least 70% of total volume, and removing any smallest-volume
bucket of that set drops the covered volume strictly below 70%. -/
theorem value_area_70pct (candles : List Candle) (bucket_size : ℚ)
    (mp : MarketProfile)
    (h : build_market_profile candles bucket_size = some mp) :
    totalVol candles * (7/10)
        ≤ ((valueAreaOf (volAtPrice candles bucket_size)
            (totalVol candles)).map Prod.snd).sum ∧
      ∀ b ∈ valueAreaOf (volAtPrice candles bucket_size) (totalVol candles),
        (∀ b2 ∈ valueAreaOf (volAtPrice candles bucket_size) (totalVol candles),
            b.2 ≤ b2.2) →
        ((valueAreaOf (volAtPrice candles bucket_size)
            (totalVol candles)).map Prod.snd).sum - b.2
          < totalVol candles * (7/10) := by
  obtain ⟨hc, hmne, htot⟩ := build_some_inv candles bucket_size mp h
  have hsum : ((sortByVolDesc (volAtPrice candles bucket_size)).map Prod.snd).sum
      = totalVol candles := by
    rw [List.Perm.sum_eq
      ((sortByVolDesc_perm (volAtPrice candles bucket_size)).map Prod.snd)]
    exact volAtPrice_sum candles bucket_size
  constructor
  · have hge := vaTake_sum_ge (totalVol candles * (7/10))
      (sortByVolDesc (volAtPrice candles bucket_size)) 0
      (by rw [hsum]; linarith)
    rw [valueAreaOf]
    linarith
  · intro b hb hmin
    have hlt := vaTake_remove_min_lt (totalVol candles * (7/10))
      (sortByVolDesc (volAtPrice candles bucket_size)) 0
      (sortByVolDesc_pairwise _) (by linarith) b
      (by rw [valueAreaOf] at hb; exact hb)
      (by rw [valueAreaOf] at hmin; exact hmin)
    rw [valueAreaOf]
    linarith

theorem value_area_70pct_witness :
    totalVol [Candle.mk "t1" none (some 107) (some 96) (some 104) 3,
        Candle.mk "t2" none (some 99) (some 91) (some 96) 2,
        Candle.mk "t3" none (some 105) (some 101) (some 104) 4] * (7/10)
        ≤ ((valueAreaOf
            (volAtPrice [Candle.mk "t1" none (some 107) (some 96) (some 104) 3,
              Candle.mk "t2" none (some 99) (some 91) (some 96) 2,
              Candle.mk "t3" none (some 105) (some 101) (some 104) 4] 10)
            (totalVol [Candle.mk "t1" none (some 107) (some 96) (some 104) 3,
              Candle.mk "t2" none (some 99) (some 91) (some 96) 2,
              Candle.mk "t3" none (some 105) (some 101) (some 104) 4])).map
              Prod.snd).sum ∧
      ∀ b ∈ valueAreaOf
          (volAtPrice [Candle.mk "t1" none (some 107) (some 96) (some 104) 3,
            Candle.mk "t2" none (some 99) (some 91) (some 96) 2,
            Candle.mk "t3" none (some 105) (some 101) (some 104) 4] 10)
          (totalVol [Candle.mk "t1" none (some 107) (some 96) (some 104) 3,
            Candle.mk "t2" none (some 99) (some 91) (some 96) 2,
            Candle.mk "t3" none (some 105) (some 101) (some 104) 4]),
        (∀ b2 ∈ valueAreaOf
            (volAtPrice [Candle.mk "t1" none (some 107) (some 96) (some 104) 3,
              Candle.mk "t2" none (some 99) (some 91) (some 96) 2,
              Candle.mk "t3" none (some 105) (some 101) (some 104) 4] 10)
            (totalVol [Candle.mk "t1" none (some 107) (some 96) (some 104) 3,
              Candle.mk "t2" none (some 99) (some 91) (some 96) 2,
              Candle.mk "t3" none (some 105) (some 101) (some 104) 4]),
            b.2 ≤ b2.2) →
        ((valueAreaOf
            (volAtPrice [Candle.mk "t1" none (some 107) (some 96) (some 104) 3,
              Candle.mk "t2" none (some 99) (some 91) (some 96) 2,
              Candle.mk "t3" none (some 105) (some 101) (some 104) 4] 10)
            (totalVol [Candle.mk "t1" none (some 107) (some 96) (some 104) 3,
              Candle.mk "t2" none (some 99) (some 91) (some 96) 2,
              Candle.mk "t3" none (some 105) (some 101) (some 104) 4])).map
              Prod.snd).sum - b.2
          < totalVol [Candle.mk "t1" none (some 107) (some 96) (some 104) 3,
              Candle.mk "t2" none (some 99) (some 91) (some 96) 2,
              Candle.mk "t3" none (some 105) (some 101) (some 104) 4] * (7/10) :=
  value_area_70pct
    [Candle.mk "t1" none (some 107) (some 96) (some 104) 3,
      Candle.mk "t2" none (some 99) (some 91) (some 96) 2,
      Candle.mk "t3" none (some 105) (some 101) (some 104) 4] 10
    (MarketProfile.mk 100 100 100 (some 107) (some 91)) (by decide)

/-! ### Option selector: argmin and sorted-strike lemmas -/

theorem foldl_argmin_spec (f : ℕ → ℤ) : ∀ (l : List ℕ) (b : ℕ),
    (l.foldl (fun b2 i => if f i < f b2 then i else b2) b = b ∨
        l.foldl (fun b2 i => if f i < f b2 then i else b2) b ∈ l) ∧
      f (l.foldl (fun b2 i => if f i < f b2 then i else b2) b) ≤ f b ∧
      ∀ i ∈ l, f (l.foldl (fun b2 i => if f i < f b2 then i else b2) b) ≤ f i := by
  intro l
  induction l with
  | nil =>
    intro b
    exact ⟨Or.inl rfl, le_refl _, fun i hi => absurd hi (List.not_mem_nil i)⟩
  | cons j js ih =>
    intro b
    rw [List.foldl_cons]
    obtain ⟨hmem, hble, hall⟩ := ih (if f j < f b then j else b)
    have hstep_le_b : f (if f j < f b then j else b) ≤ f b := by
      split_ifs with hj
      · exact le_of_lt hj
      · exact le_refl _
    have hstep_le_j : f (if f j < f b then j else b) ≤ f j := by
      split_ifs with hj
      · exact le_refl _
      · exact le_of_not_lt hj
    refine ⟨?_, le_trans hble hstep_le_b, ?_⟩
    · rcases hmem with hmem | hmem
      · rw [hmem]
        split_ifs with hj
        · exact Or.inr (List.mem_cons_self j js)
        · exact Or.inl rfl
      · exact Or.inr (List.mem_cons_of_mem j hmem)
    · intro i hi
      rcases List.mem_cons.mp hi with hi | hi
      · rw [hi]
        exact le_trans hble hstep_le_j
      · exact hall i hi

theorem pyMinIdx_lt (f : ℕ → ℤ) (n : ℕ) (h : 0 < n) : pyMinIdx f n < n := by
  obtain ⟨hmem, _, _⟩ := foldl_argmin_spec f (List.range n) 0
  rw [pyMinIdx]
  rcases hmem with hm | hm
  · rw [hm]; exact h
  · exact List.mem_range.mp hm

theorem pyMinIdx_min (f : ℕ → ℤ) (n : ℕ) :
    ∀ i < n, f (pyMinIdx f n) ≤ f i := by
  intro i hi
  obtain ⟨_, _, hall⟩ := foldl_argmin_spec f (List.range n) 0
  exact hall i (List.mem_range.mpr hi)

theorem mem_insSorted (x : ℤ) : ∀ (l : List ℤ) (z : ℤ),
    z ∈ insSorted x l ↔ z = x ∨ z ∈ l := by
  intro l
  induction l with
  | nil => intro z; simp [insSorted]
  | cons y ys ih =>
    intro z
    rw [insSorted]
    split_ifs with h1 h2
    · simp only [List.mem_cons]
    · constructor
      · intro hz
        exact Or.inr hz
      · intro hz
        rcases hz with hz | hz
        · rw [hz, h2]
          exact List.mem_cons_self y ys
        · exact hz
    · simp only [List.mem_cons, ih]
      tauto

theorem insSorted_pairwise (x : ℤ) : ∀ (l : List ℤ),
    l.Pairwise (· < ·) → (insSorted x l).Pairwise (· < ·) := by
  intro l
  induction l with
  | nil => intro _; simp [insSorted]
  | cons y ys ih =>
    intro h
    rw [List.pairwise_cons] at h
    rw [insSorted]
    split_ifs with h1 h2
    · refine List.Pairwise.cons ?_ (List.Pairwise.cons h.1 h.2)
      intro z hz
      rcases List.mem_cons.mp hz with hz | hz
      · rw [hz]; exact h1
      · exact lt_trans h1 (h.1 z hz)
    · exact List.Pairwise.cons h.1 h.2
    · refine List.Pairwise.cons ?_ (ih h.2)
      intro z hz
      rcases (mem_insSorted x ys z).mp hz with hz | hz
      · rw [hz]
        push_neg at h1 h2
        exact lt_of_le_of_ne h1 (fun he => h2 he.symm)
      · exact h.1 z hz

theorem sortedDedup_pairwise : ∀ (l : List ℤ), (sortedDedup l).Pairwise (· < ·) := by
  intro l
  induction l with
  | nil => exact List.Pairwise.nil
  | cons x xs ih => exact insSorted_pairwise x (sortedDedup xs) ih

theorem strikesOf_pairwise (contracts : List OptionContract) (t : String) :
    (strikesOf contracts t).Pairwise (· < ·) :=
  sortedDedup_pairwise _

/-! ### Option selector: the ATM window -/

theorem windowOf_spec (S : List ℤ) (atm : ℤ) (N : ℕ) (h : S ≠ []) :
    (windowOf S atm N).length ≤ 2 * N + 1 ∧
      (∃ pre post, S = pre ++ windowOf S atm N ++ post) ∧
      ∃ s ∈ windowOf S atm N, ∀ s2 ∈ S, |s - atm| ≤ |s2 - atm| := by
  have hn : 0 < S.length := List.length_pos.mpr h
  set i := atmIdxOf S atm with hidef
  have hilt : i < S.length := pyMinIdx_lt _ _ hn
  set start := i - N with hstart
  set e := min (S.length - 1) (i + N) with he
  have hw : windowOf S atm N = (S.drop start).take (e + 1 - start) := rfl
  have hlen : (windowOf S atm N).length = min (e + 1 - start) (S.length - start) := by
    rw [hw, List.length_take, List.length_drop]
  refine ⟨?_, ⟨S.take start, (S.drop start).drop (e + 1 - start), ?_⟩, ?_⟩
  · rw [hlen]; omega
  · calc S = S.take start ++ S.drop start := (List.take_append_drop start S).symm
      _ = S.take start ++ (windowOf S atm N ++ (S.drop start).drop (e + 1 - start)) := by
          rw [hw, List.take_append_drop (e + 1 - start) (S.drop start)]
      _ = S.take start ++ windowOf S atm N ++ (S.drop start).drop (e + 1 - start) := by
          rw [List.append_assoc]
  · refine ⟨S.getD i 0, ?_, ?_⟩
    · have h1 : (windowOf S atm N)[i - start]? = S[i]? := by
        rw [hw, List.getElem?_take, if_pos (by omega : i - start < e + 1 - start),
          List.getElem?_drop]
        congr 1
        omega
      rw [List.getElem?_eq_getElem hilt] at h1
      rw [List.getD_eq_getElem S 0 hilt]
      exact List.getElem?_mem h1
    · intro s2 hs2
      obtain ⟨j, hj, hjs⟩ := List.mem_iff_getElem.mp hs2
      have hmin := pyMinIdx_min (fun k => |S.getD k 0 - atm|) S.length j hj
      have hieq : pyMinIdx (fun k => |S.getD k 0 - atm|) S.length = i := rfl
      rw [hieq] at hmin
      simp only [] at hmin
      rw [List.getD_eq_getElem S 0 hilt, List.getD_eq_getElem S 0 hj, hjs] at hmin
      rw [List.getD_eq_getElem S 0 hilt]
      exact hmin

/-- C5: per option type, the selected strikes are at most `2N+1`, form a
contiguous slice of the sorted duplicate-free available strikes of that
type, and contain a strike at minimal distance from the ATM value. -/
theorem atm_window_selection (contracts : List OptionContract) (t : String)
    (atm_strike : ℤ) (strikes_each_side : ℕ) (h : strikesOf contracts t ≠ []) :
    (strikesOf contracts t).Pairwise (· < ·) ∧
      (windowOf (strikesOf contracts t) atm_strike strikes_each_side).length
          ≤ 2 * strikes_each_side + 1 ∧
      (∃ pre post, strikesOf contracts t
          = pre ++ windowOf (strikesOf contracts t) atm_strike strikes_each_side
              ++ post) ∧
      ∃ s ∈ windowOf (strikesOf contracts t) atm_strike strikes_each_side,
        ∀ s2 ∈ strikesOf contracts t, |s - atm_strike| ≤ |s2 - atm_strike| := by
  obtain ⟨h1, h2, h3⟩ := windowOf_spec (strikesOf contracts t) atm_strike strikes_each_side h
  exact ⟨strikesOf_pairwise contracts t, h1, h2, h3⟩

theorem atm_window_selection_witness :
    (strikesOf
        [OptionContract.mk "kCE100" "NIFTY100CE" "CE" 100,
          OptionContract.mk "kCE150" "NIFTY150CE" "CE" 150,
          OptionContract.mk "kPE100" "NIFTY100PE" "PE" 100] "CE" ≠ []) ∧
      ((strikesOf
          [OptionContract.mk "kCE100" "NIFTY100CE" "CE" 100,
            OptionContract.mk "kCE150" "NIFTY150CE" "CE" 150,
            OptionContract.mk "kPE100" "NIFTY100PE" "PE" 100] "CE").Pairwise (· < ·) ∧
        (windowOf (strikesOf
            [OptionContract.mk "kCE100" "NIFTY100CE" "CE" 100,
              OptionContract.mk "kCE150" "NIFTY150CE" "CE" 150,
              OptionContract.mk "kPE100" "NIFTY100PE" "PE" 100] "CE") 120 3).length
            ≤ 2 * 3 + 1 ∧
        (∃ pre post, strikesOf
            [OptionContract.mk "kCE100" "NIFTY100CE" "CE" 100,
              OptionContract.mk "kCE150" "NIFTY150CE" "CE" 150,
              OptionContract.mk "kPE100" "NIFTY100PE" "PE" 100] "CE"
            = pre ++ windowOf (strikesOf
                [OptionContract.mk "kCE100" "NIFTY100CE" "CE" 100,
                  OptionContract.mk "kCE150" "NIFTY150CE" "CE" 150,
                  OptionContract.mk "kPE100" "NIFTY100PE" "PE" 100] "CE") 120 3
                ++ post) ∧
        ∃ s ∈ windowOf (strikesOf
            [OptionContract.mk "kCE100" "NIFTY100CE" "CE" 100,
              OptionContract.mk "kCE150" "NIFTY150CE" "CE" 150,
              OptionContract.mk "kPE100" "NIFTY100PE" "PE" 100] "CE") 120 3,
          ∀ s2 ∈ strikesOf
              [OptionContract.mk "kCE100" "NIFTY100CE" "CE" 100,
                OptionContract.mk "kCE150" "NIFTY150CE" "CE" 150,
                OptionContract.mk "kPE100" "NIFTY100PE" "PE" 100] "CE",
            |s - 120| ≤ |s2 - 120|) :=
  ⟨by decide,
    atm_window_selection
      [OptionContract.mk "kCE100" "NIFTY100CE" "CE" 100,
        OptionContract.mk "kCE150" "NIFTY150CE" "CE" 150,
        OptionContract.mk "kPE100" "NIFTY100PE" "PE" 100] "CE" 120 3 (by decide)⟩

theorem windowOf_clip_high (S : List ℤ) (atm : ℤ) (N : ℕ) (h : S ≠ [])
    (hsort : S.Pairwise (· < ·)) (hhigh : ∀ s ∈ S, s < atm) :
    (∃ pre, S = pre ++ windowOf S atm N) ∧
      (windowOf S atm N).length = min (N + 1) S.length ∧
      ∃ s ∈ windowOf S atm N, ∀ s2 ∈ S, s2 ≤ s := by
  have hn : 0 < S.length := List.length_pos.mpr h
  set i := atmIdxOf S atm with hidef
  have hilt : i < S.length := pyMinIdx_lt _ _ hn
  have hpw := List.pairwise_iff_getElem.mp hsort
  have hlast : S.length - 1 < S.length := by omega
  have hieq : i = S.length - 1 := by
    by_contra hne
    have hi2 : i < S.length - 1 := by omega
    have hmin := pyMinIdx_min (fun k => |S.getD k 0 - atm|) S.length (S.length - 1) hlast
    have hieq2 : pyMinIdx (fun k => |S.getD k 0 - atm|) S.length = i := rfl
    rw [hieq2] at hmin
    simp only [] at hmin
    rw [List.getD_eq_getElem S 0 hilt, List.getD_eq_getElem S 0 hlast] at hmin
    have hab : S[i] < S[S.length - 1] := hpw i (S.length - 1) hilt hlast hi2
    have ha : S[i] < atm := hhigh _ (List.getElem_mem hilt)
    have hb : S[S.length - 1] < atm := hhigh _ (List.getElem_mem hlast)
    rw [abs_of_neg (by omega : S[i] - atm < 0),
      abs_of_neg (by omega : S[S.length - 1] - atm < 0)] at hmin
    omega
  set start := i - N with hstart
  set e := min (S.length - 1) (i + N) with he
  have hw : windowOf S atm N = (S.drop start).take (e + 1 - start) := rfl
  have hdl : (S.drop start).length = S.length - start := List.length_drop start S
  have hwd : windowOf S atm N = S.drop start := by
    rw [hw]
    exact List.take_of_length_le (by omega)
  refine ⟨⟨S.take start, by rw [hwd, List.take_append_drop]⟩, ?_, ?_⟩
  · rw [hwd, hdl]; omega
  · refine ⟨S.getD (S.length - 1) 0, ?_, ?_⟩
    · have h1 : (windowOf S atm N)[S.length - 1 - start]? = S[S.length - 1]? := by
        rw [hwd, List.getElem?_drop]
        congr 1
        omega
      rw [List.getElem?_eq_getElem hlast] at h1
      rw [List.getD_eq_getElem S 0 hlast]
      exact List.getElem?_mem h1
    · intro s2 hs2
      obtain ⟨j, hj, hjs⟩ := List.mem_iff_getElem.mp hs2
      rw [List.getD_eq_getElem S 0 hlast, ← hjs]
      rcases Nat.lt_or_ge j (S.length - 1) with hj2 | hj2
      · exact le_of_lt (hpw j (S.length - 1) hj hlast hj2)
      · have : j = S.length - 1 := by omega
        subst this
        exact le_refl _

theorem windowOf_clip_low (S : List ℤ) (atm : ℤ) (N : ℕ) (h : S ≠ [])
    (hsort : S.Pairwise (· < ·)) (hlow : ∀ s ∈ S, atm < s) :
    (∃ post, S = windowOf S atm N ++ post) ∧
      (windowOf S atm N).length = min (N + 1) S.length ∧
      ∃ s ∈ windowOf S atm N, ∀ s2 ∈ S, s ≤ s2 := by
  have hn : 0 < S.length := List.length_pos.mpr h
  set i := atmIdxOf S atm with hidef
  have hilt : i < S.length := pyMinIdx_lt _ _ hn
  have hpw := List.pairwise_iff_getElem.mp hsort
  have hieq : i = 0 := by
    by_contra hne
    have hi2 : 0 < i := by omega
    have hmin := pyMinIdx_min (fun k => |S.getD k 0 - atm|) S.length 0 hn
    have hieq2 : pyMinIdx (fun k => |S.getD k 0 - atm|) S.length = i := rfl
    rw [hieq2] at hmin
    simp only [] at hmin
    rw [List.getD_eq_getElem S 0 hilt, List.getD_eq_getElem S 0 hn] at hmin
    have hab : S[0] < S[i] := hpw 0 i hn hilt hi2
    have ha : atm < S[i] := hlow _ (List.getElem_mem hilt)
    have hb : atm < S[0] := hlow _ (List.getElem_mem hn)
    rw [abs_of_pos (by omega : (0 : ℤ) < S[i] - atm),
      abs_of_pos (by omega : (0 : ℤ) < S[0] - atm)] at hmin
    omega
  set start := i - N with hstart
  set e := min (S.length - 1) (i + N) with he
  have hw : windowOf S atm N = (S.drop start).take (e + 1 - start) := rfl
  have hstart0 : start = 0 := by omega
  have hwd : windowOf S atm N = S.take (e + 1) := by
    rw [hw, hstart0, List.drop_zero, Nat.sub_zero]
  refine ⟨⟨S.drop (e + 1), by rw [hwd, List.take_append_drop]⟩, ?_, ?_⟩
  · rw [hwd, List.length_take]; omega
  · refine ⟨S.getD 0 0, ?_, ?_⟩
    · have h1 : (windowOf S atm N)[0]? = S[0]? := by
        rw [hwd, List.getElem?_take, if_pos (by omega : 0 < e + 1)]
      rw [List.getElem?_eq_getElem hn] at h1
      rw [List.getD_eq_getElem S 0 hn]
      exact List.getElem?_mem h1
    · intro s2 hs2
      obtain ⟨j, hj, hjs⟩ := List.mem_iff_getElem.mp hs2
      rw [List.getD_eq_getElem S 0 hn, ← hjs]
      rcases Nat.lt_or_ge 0 j with hj2 | hj2
      · exact le_of_lt (hpw 0 j hn hj hj2)
      · have : j = 0 := by omega
        subst this
        exact le_refl _

/-- C6: when the ATM strike lies beyond the highest (resp. lowest)
available strike of an option type, the selection window clips to the
available range — it is a suffix (resp. a slice starting at the lowest
strike) of the sorted distinct strikes of length `min (N+1) (number of
strikes)`, containing the extreme strike — rather than erroring or
indexing out of bounds (the embedded selector is total). -/
theorem atm_window_clips (contracts : List OptionContract) (t : String)
    (atm_strike : ℤ) (strikes_each_side : ℕ) (h : strikesOf contracts t ≠ []) :
    ((∀ s ∈ strikesOf contracts t, s < atm_strike) →
        (∃ pre, strikesOf contracts t
            = pre ++ windowOf (strikesOf contracts t) atm_strike strikes_each_side) ∧
          (windowOf (strikesOf contracts t) atm_strike strikes_each_side).length
              = min (strikes_each_side + 1) (strikesOf contracts t).length ∧
          ∃ s ∈ windowOf (strikesOf contracts t) atm_strike strikes_each_side,
            ∀ s2 ∈ strikesOf contracts t, s2 ≤ s) ∧
      ((∀ s ∈ strikesOf contracts t, atm_strike < s) →
        (∃ post, strikesOf contracts t
            = windowOf (strikesOf contracts t) atm_strike strikes_each_side ++ post) ∧
          (windowOf (strikesOf contracts t) atm_strike strikes_each_side).length
              = min (strikes_each_side + 1) (strikesOf contracts t).length ∧
          ∃ s ∈ windowOf (strikesOf contracts t) atm_strike strikes_each_side,
            ∀ s2 ∈ strikesOf contracts t, s ≤ s2) :=
  ⟨fun hh => windowOf_clip_high (strikesOf contracts t) atm_strike
      strikes_each_side h (strikesOf_pairwise contracts t) hh,
    fun hl => windowOf_clip_low (strikesOf contracts t) atm_strike
      strikes_each_side h (strikesOf_pairwise contracts t) hl⟩

theorem atm_window_clips_witness :
    (strikesOf
        [OptionContract.mk "kCE100" "NIFTY100CE" "CE" 100,
          OptionContract.mk "kCE150" "NIFTY150CE" "CE" 150] "CE" ≠ []) ∧
      (((∀ s ∈ strikesOf
            [OptionContract.mk "kCE100" "NIFTY100CE" "CE" 100,
              OptionContract.mk "kCE150" "NIFTY150CE" "CE" 150] "CE", s < 500) →
          (∃ pre, strikesOf
              [OptionContract.mk "kCE100" "NIFTY100CE" "CE" 100,
                OptionContract.mk "kCE150" "NIFTY150CE" "CE" 150] "CE"
              = pre ++ windowOf (strikesOf
                  [OptionContract.mk "kCE100" "NIFTY100CE" "CE" 100,
                    OptionContract.mk "kCE150" "NIFTY150CE" "CE" 150] "CE") 500 3) ∧
            (windowOf (strikesOf
                [OptionContract.mk "kCE100" "NIFTY100CE" "CE" 100,
                  OptionContract.mk "kCE150" "NIFTY150CE" "CE" 150] "CE") 500 3).length
                = min (3 + 1) (strikesOf
                    [OptionContract.mk "kCE100" "NIFTY100CE" "CE" 100,
                      OptionContract.mk "kCE150" "NIFTY150CE" "CE" 150] "CE").length ∧
            ∃ s ∈ windowOf (strikesOf
                [OptionContract.mk "kCE100" "NIFTY100CE" "CE" 100,
                  OptionContract.mk "kCE150" "NIFTY150CE" "CE" 150] "CE") 500 3,
              ∀ s2 ∈ strikesOf
                  [OptionContract.mk "kCE100" "NIFTY100CE" "CE" 100,
                    OptionContract.mk "kCE150" "NIFTY150CE" "CE" 150] "CE", s2 ≤ s) ∧
        ((∀ s ∈ strikesOf
            [OptionContract.mk "kCE100" "NIFTY100CE" "CE" 100,
              OptionContract.mk "kCE150" "NIFTY150CE" "CE" 150] "CE", (500 : ℤ) < s) →
          (∃ post, strikesOf
              [OptionContract.mk "kCE100" "NIFTY100CE" "CE" 100,
                OptionContract.mk "kCE150" "NIFTY150CE" "CE" 150] "CE"
              = windowOf (strikesOf
                  [OptionContract.mk "kCE100" "NIFTY100CE" "CE" 100,
                    OptionContract.mk "kCE150" "NIFTY150CE" "CE" 150] "CE") 500 3 ++ post) ∧
            (windowOf (strikesOf
                [OptionContract.mk "kCE100" "NIFTY100CE" "CE" 100,
                  OptionContract.mk "kCE150" "NIFTY150CE" "CE" 150] "CE") 500 3).length
                = min (3 + 1) (strikesOf
                    [OptionContract.mk "kCE100" "NIFTY100CE" "CE" 100,
                      OptionContract.mk "kCE150" "NIFTY150CE" "CE" 150] "CE").length ∧
            ∃ s ∈ windowOf (strikesOf
                [OptionContract.mk "kCE100" "NIFTY100CE" "CE" 100,
                  OptionContract.mk "kCE150" "NIFTY150CE" "CE" 150] "CE") 500 3,
              ∀ s2 ∈ strikesOf
                  [OptionContract.mk "kCE100" "NIFTY100CE" "CE" 100,
                    OptionContract.mk "kCE150" "NIFTY150CE" "CE" 150] "CE", s ≤ s2)) :=
  ⟨by decide,
    atm_window_clips
      [OptionContract.mk "kCE100" "NIFTY100CE" "CE" 100,
        OptionContract.mk "kCE150" "NIFTY150CE" "CE" 150] "CE" 500 3 (by decide)⟩

/-! ### Option selector: output ordering -/

theorem pickSide_mem (contracts : List OptionContract) (t : String)
    (atm_strike : ℤ) (strikes_each_side : ℕ) (p : String × String)
    (hp : p ∈ pickSide contracts t atm_strike strikes_each_side) :
    ∃ c, c ∈ contracts ∧ c.instrument_type = t
      ∧ p = (c.instrument_key, c.trading_symbol) := by
  simp only [pickSide] at hp
  split_ifs at hp with hs
  · cases hp
  · obtain ⟨s, hsmem, hf⟩ := List.mem_filterMap.mp hp
    obtain ⟨c, hfind, hc⟩ := Option.map_eq_some'.mp hf
    have hcsub : c ∈ subsetOf contracts t := List.mem_of_find?_eq_some hfind
    rw [subsetOf] at hcsub
    obtain ⟨hcm, hct⟩ := List.mem_filter.mp hcsub
    exact ⟨c, hcm, of_decide_eq_true hct, hc.symm⟩

/-- C2: `pick_atm_plus_minus` returns a sequence of
(instrument identifier, trading symbol) pairs in which every pair drawn
from a call contract precedes every pair drawn from a put contract. -/
theorem pick_calls_then_puts (contracts : List OptionContract)
    (atm_strike : ℤ) (strikes_each_side : ℕ) :
    ∃ l1 l2, pick_atm_plus_minus contracts atm_strike strikes_each_side = l1 ++ l2 ∧
      (∀ p ∈ l1, ∃ c, c ∈ contracts ∧ c.instrument_type = "CE"
          ∧ p = (c.instrument_key, c.trading_symbol)) ∧
      (∀ p ∈ l2, ∃ c, c ∈ contracts ∧ c.instrument_type = "PE"
          ∧ p = (c.instrument_key, c.trading_symbol)) :=
  ⟨pickSide contracts "CE" atm_strike strikes_each_side,
    pickSide contracts "PE" atm_strike strikes_each_side, rfl,
    fun p hp => pickSide_mem contracts "CE" atm_strike strikes_each_side p hp,
    fun p hp => pickSide_mem contracts "PE" atm_strike strikes_each_side p hp⟩
